import Mathlib

/-!
Verification of `Stiefel_diff_tools.py` (directional derivatives of QR, matrix
exponential, Stiefel exponential and SVD).

The Python functions are embedded shallowly over an arbitrary linearly ordered
field `K` (exact arithmetic; witnesses instantiate `K := ℚ`, the analytic
results about the matrix exponential instantiate `K := ℝ`).  The external
dense-linear-algebra routines that the source calls (`linalg.qr`,
`linalg.solve_triangular`, `linalg.expm`) are passed in as explicit function
parameters; theorems constrain them through the contracts those routines
satisfy (e.g. `QᵀQ = 1`, `R` upper triangular, `R * Rinv = 1`).

Scalar division in Python raises `ZeroDivisionError` when the divisor is
exactly zero; the embedding of `Stiefel_diff_exp` therefore returns
`Except PyErr _`, erroring exactly where `1.0/(metric_alpha + 1.0)` would
raise.  All other code paths are total.
-/

open Matrix

namespace StiefelDiffTools

variable {K : Type} [LinearOrderedField K]

/-- The only exception the embedded code can raise itself: Python float
division by exactly zero. -/
inductive PyErr : Type
  | zeroDivisionError : PyErr
deriving DecidableEq

/-- Embedding of `select_lower(M)`: the strictly lower triangular part of `M`
(the source builds an `n×n` result and is only ever called on square input). -/
def select_lower {p : ℕ} (M : Matrix (Fin p) (Fin p) K) : Matrix (Fin p) (Fin p) K :=
  Matrix.of fun i j => if (j : ℕ) < (i : ℕ) then M i j else 0

/-- Embedding of the clean-up loops `for i ...: for j in range(i): X[i,j] = 0.0`
that zero the strictly lower triangle of `X`. -/
def zero_strict_lower {p : ℕ} (M : Matrix (Fin p) (Fin p) K) : Matrix (Fin p) (Fin p) K :=
  Matrix.of fun i j => if (j : ℕ) < (i : ℕ) then 0 else M i j

/-- Embedding of `Stiefel_diff_QR(A0, V)`.  `qr` embeds
`linalg.qr(·, mode='economic')` and `solve_triangular` embeds
`linalg.solve_triangular` (external collaborators).  Returns `(Q, dQ, R, dR)`. -/
def Stiefel_diff_QR {n p : ℕ}
    (qr : Matrix (Fin n) (Fin p) K → Matrix (Fin n) (Fin p) K × Matrix (Fin p) (Fin p) K)
    (solve_triangular : Matrix (Fin p) (Fin p) K → Matrix (Fin p) (Fin p) K →
      Matrix (Fin p) (Fin p) K)
    (A0 V : Matrix (Fin n) (Fin p) K) :
    Matrix (Fin n) (Fin p) K × Matrix (Fin n) (Fin p) K ×
      Matrix (Fin p) (Fin p) K × Matrix (Fin p) (Fin p) K :=
  let QR := qr A0
  let Q := QR.1
  let R := QR.2
  -- Rinv = solve_triangular(R, identity(p)), then zero the strict lower triangle
  let Rinv := zero_strict_lower (solve_triangular R 1)
  let QTV := Qᵀ * V
  let D0 := QTV * Rinv
  let L := select_lower D0
  -- D = L - L.T  (made skew)
  let D := L - Lᵀ
  -- dR = QTV - D*R, then zero the strict lower triangle
  let dR := zero_strict_lower (QTV - D * R)
  -- dQ = (V - Q*QTV)*Rinv + Q*D
  let dQ := (V - Q * QTV) * Rinv + Q * D
  (Q, dQ, R, dR)

/-- Embedding of `diff_expm(M, dM)`: build `Aux = [[M, dM], [0, M]]`, apply the
external matrix exponential `expm` and return the two top blocks.  Block
concatenation is modelled with `Matrix.fromBlocks` over the sum index. -/
def diff_expm {N : Type} [Fintype N] [DecidableEq N]
    (expm : Matrix (N ⊕ N) (N ⊕ N) K → Matrix (N ⊕ N) (N ⊕ N) K)
    (M dM : Matrix N N K) : Matrix N N K × Matrix N N K :=
  let Aux := Matrix.fromBlocks M dM 0 M
  let dexpm := expm Aux
  (dexpm.toBlocks₁₁, dexpm.toBlocks₁₂)

/-- The skew-symmetrisation `0.5*(M - M.T)` applied by `Stiefel_diff_exp` to
`U.T*Delta` and `U.T*V`. -/
def skew_part {p : ℕ} (M : Matrix (Fin p) (Fin p) K) : Matrix (Fin p) (Fin p) K :=
  ((1 : K)/2) • (M - Mᵀ)

/-- The body of `Stiefel_diff_exp` after the two skew-symmetrised projections
`A0 = 0.5*(UᵀDelta - (UᵀDelta)ᵀ)` and `dA0 = 0.5*(UᵀV - (UᵀV)ᵀ)` have been
formed; every subsequent step of the source uses only `A0`, `dA0`, `Delta`,
`V`, `U` and `metric_alpha`.  The guard on `metric_alpha + 1 = 0` models the
Python `ZeroDivisionError` raised by `v = 1.0/(metric_alpha + 1.0)`.

Note: when `|metric_alpha| > 1e-10` but the final condition fails, the source
computes the pair `(expA, dexpA)` and then never uses it; the embedding elides
that dead computation (the external `expm` is a pure function). -/
def Stiefel_diff_exp_core {n p : ℕ}
    (qr : Matrix (Fin n) (Fin p) K → Matrix (Fin n) (Fin p) K × Matrix (Fin p) (Fin p) K)
    (solve_triangular : Matrix (Fin p) (Fin p) K → Matrix (Fin p) (Fin p) K →
      Matrix (Fin p) (Fin p) K)
    (expm : ∀ {N : Type} [Fintype N] [DecidableEq N], Matrix N N K → Matrix N N K)
    (U Delta V : Matrix (Fin n) (Fin p) K)
    (A0 dA0 : Matrix (Fin p) (Fin p) K) (metric_alpha : K) :
    Except PyErr (Matrix (Fin n) (Fin p) K) :=
  -- X0 = Delta - U*A0,  Y0 = V - U*dA0
  let X0 := Delta - U * A0
  let Y0 := V - U * dA0
  -- Q, dQ, R, dR = Stiefel_diff_QR(X0, Y0)
  let QdQ := Stiefel_diff_QR qr solve_triangular X0 Y0
  let Q := QdQ.1
  let dQ := QdQ.2.1
  let R := QdQ.2.2.1
  let dR := QdQ.2.2.2
  -- v = 1.0/(metric_alpha + 1.0): Python float division raises on divisor 0.0
  if metric_alpha + 1 = 0 then .error .zeroDivisionError else
  let v := 1 / (metric_alpha + 1)
  -- M = [[v*A0, -R.T], [R, 0]],  dM = [[v*dA0, -dR.T], [dR, 0]]
  let M := Matrix.fromBlocks (v • A0) (-Rᵀ) R 0
  let dM := Matrix.fromBlocks (v • dA0) (-dRᵀ) dR 0
  let ex := diff_expm expm M dM
  -- keep only the left p columns of each factor
  let expM_I_0 := (ex.1).submatrix id Sum.inl
  let dexpM_I_0 := (ex.2).submatrix id Sum.inl
  if |metric_alpha| > 1/10^10 ∧ |metric_alpha + 1| > 1/10^10 then
    -- alpha-metric case; needs the smaller matrix exponential pair as well
    let mu := metric_alpha / (metric_alpha + 1)
    let eA := diff_expm expm (mu • A0) (mu • dA0)
    .ok (dQ * (expM_I_0.submatrix Sum.inr id * eA.1)
       + U * (dexpM_I_0.submatrix Sum.inl id * eA.1)
       + Q * (dexpM_I_0.submatrix Sum.inr id * eA.1)
       + U * (expM_I_0.submatrix Sum.inl id * eA.2)
       + Q * (expM_I_0.submatrix Sum.inr id * eA.2))
  else
    -- canonical metric case
    .ok (dQ * expM_I_0.submatrix Sum.inr id
       + U * dexpM_I_0.submatrix Sum.inl id
       + Q * dexpM_I_0.submatrix Sum.inr id)

/-- Embedding of `Stiefel_diff_exp(U, Delta, V, metric_alpha)`: the projections
onto the skew parts of `UᵀDelta` and `UᵀV`, followed by the core computation. -/
def Stiefel_diff_exp {n p : ℕ}
    (qr : Matrix (Fin n) (Fin p) K → Matrix (Fin n) (Fin p) K × Matrix (Fin p) (Fin p) K)
    (solve_triangular : Matrix (Fin p) (Fin p) K → Matrix (Fin p) (Fin p) K →
      Matrix (Fin p) (Fin p) K)
    (expm : ∀ {N : Type} [Fintype N] [DecidableEq N], Matrix N N K → Matrix N N K)
    (U Delta V : Matrix (Fin n) (Fin p) K) (metric_alpha : K := 0) :
    Except PyErr (Matrix (Fin n) (Fin p) K) :=
  Stiefel_diff_exp_core qr solve_triangular expm U Delta V
    (skew_part (Uᵀ * Delta)) (skew_part (Uᵀ * V)) metric_alpha

/-- Result record of `Stiefel_diff_SVD` (the source returns the tuple
`dU_bot, A, dU, Alpha, dS, dV` in this order). -/
structure SVDOut (K : Type) (n m p : ℕ) where
  dU_bot : Matrix (Fin n) (Fin p) K
  A : Matrix (Fin p) (Fin p) K
  dU : Matrix (Fin n) (Fin p) K
  Alpha : Matrix (Fin p) (Fin p) K
  dS : Fin p → K
  dV : Matrix (Fin m) (Fin p) K
deriving DecidableEq

/-- Embedding of `Stiefel_diff_SVD(Y, dY, U, S, V)`.  `Y` (unused by the
source), `dY` are `n×m`; `U` is `n×p`; `S` a `p`-vector; `V` is `m×q` (thin
`q = p`, or full `q = m`).  Indexing `V[:,k]` for `k < p` requires `p ≤ q`
(otherwise Python raises `IndexError`), hence the shape precondition `hpq`.
NumPy divisions by zero produce IEEE non-finite values, never exceptions, so
the function is total; the exact-arithmetic embedding uses the ambient field
division (where `x / 0 = 0`). -/
def Stiefel_diff_SVD {n m p q : ℕ} (hpq : p ≤ q)
    (Y dY : Matrix (Fin n) (Fin m) K) (U : Matrix (Fin n) (Fin p) K)
    (S : Fin p → K) (V : Matrix (Fin m) (Fin q) K) : SVDOut K n m p :=
  -- S_inv = 1.0/S
  let S_inv : Fin p → K := fun k => 1 / S k
  -- dS[k] = U[:,k].T @ dY @ V[:,k]
  let dS : Fin p → K := fun k =>
    dotProduct (fun i => U i k) (dY.mulVec fun j => V j (Fin.castLE hpq k))
  -- V[:,0:p]
  let Vp : Matrix (Fin m) (Fin p) K := V.submatrix id (Fin.castLE hpq)
  let VSinv := Vp * Matrix.diagonal S_inv
  let dYVSinv := dY * VSinv
  let UTdYVSinv := Uᵀ * dYVSinv
  let dU_bot := dYVSinv - U * UTdYVSinv
  let UTdY := Uᵀ * dY
  -- C = U.T @ dY @ V[:,0:p]
  let C := UTdY * Vp
  -- Alpha_p[j,k] for j<k, antisymmetrised; diagonal left at zero
  let Alpha_p : Matrix (Fin p) (Fin p) K := Matrix.of fun j k =>
    if (j : ℕ) < (k : ℕ) then
      (S j * C j k + S k * C k j) / ((S k + S j) * (S k - S j))
    else if (k : ℕ) < (j : ℕ) then
      -((S k * C k j + S j * C j k) / ((S j + S k) * (S j - S k)))
    else 0
  let dV0 := Vp * Alpha_p
  -- if full V is available (V has m columns) and m > p, add the complement part
  let dV :=
    if h : q = m ∧ p < m then
      let Vmp : Matrix (Fin m) (Fin (m - p)) K :=
        Matrix.of fun i j => V i ⟨p + (j : ℕ), by omega⟩
      let C2 := UTdY * Vmp
      let Alpha_mp : Matrix (Fin (m - p)) (Fin p) K :=
        Matrix.of fun j k => C2 k j / S k
      dV0 + Vmp * Alpha_mp
    else dV0
  let X := (Matrix.diagonal S * Alpha_p - Matrix.diagonal dS) * Matrix.diagonal S_inv
  let A0 := UTdYVSinv + X
  -- guarantee skew-symmetry: A = 0.5*(A - A.T)
  let A := ((1 : K)/2) • (A0 - A0ᵀ)
  let dU := dYVSinv + U * X
  ⟨dU_bot, A, dU, Alpha_p, dS, dV⟩

/-- Upper triangular predicate for square matrices: everything strictly below
the diagonal vanishes. -/
def IsUpperTri {p : ℕ} (M : Matrix (Fin p) (Fin p) K) : Prop :=
  ∀ i j : Fin p, (j : ℕ) < (i : ℕ) → M i j = 0

/-- Claim-side definition (refinement target, following the spec's words for
the canonical-metric combination step): with `A0 = skew(UᵀDelta)`,
`dA0 = skew(UᵀV)`, `Q, dQ, R, dR` the differentiated QR factors of the curve
`X0 + tY0`, `v = 1/(alpha+1)`, `expM_I0` and `dexpM_I0` the left `p` columns
of `diff_expm` applied to `M = [[v·A0, -Rᵀ],[R, 0]]`,
`dM = [[v·dA0, -dRᵀ],[dR, 0]]`, the result is
`dQ·expM_I0[p:2p,0:p] + U·dexpM_I0[0:p,0:p] + Q·dexpM_I0[p:2p,0:p]`. -/
def canonical_combination {n p : ℕ}
    (qr : Matrix (Fin n) (Fin p) K → Matrix (Fin n) (Fin p) K × Matrix (Fin p) (Fin p) K)
    (solve_triangular : Matrix (Fin p) (Fin p) K → Matrix (Fin p) (Fin p) K →
      Matrix (Fin p) (Fin p) K)
    (expm : ∀ {N : Type} [Fintype N] [DecidableEq N], Matrix N N K → Matrix N N K)
    (U Delta V : Matrix (Fin n) (Fin p) K) (metric_alpha : K) :
    Matrix (Fin n) (Fin p) K :=
  let A0 := skew_part (Uᵀ * Delta)
  let dA0 := skew_part (Uᵀ * V)
  let X0 := Delta - U * A0
  let Y0 := V - U * dA0
  let QdQ := Stiefel_diff_QR qr solve_triangular X0 Y0
  let Q := QdQ.1
  let dQ := QdQ.2.1
  let R := QdQ.2.2.1
  let dR := QdQ.2.2.2
  let v := 1 / (metric_alpha + 1)
  let ex := diff_expm expm (Matrix.fromBlocks (v • A0) (-Rᵀ) R 0)
    (Matrix.fromBlocks (v • dA0) (-dRᵀ) dR 0)
  let expM_I_0 := (ex.1).submatrix id Sum.inl
  let dexpM_I_0 := (ex.2).submatrix id Sum.inl
  dQ * expM_I_0.submatrix Sum.inr id
    + U * dexpM_I_0.submatrix Sum.inl id
    + Q * dexpM_I_0.submatrix Sum.inr id

/-- Claim-side definition (refinement target, following the claim's words for
`dV`): if the supplied `V` is a full square `m×m` matrix and `m > p` then
`dV = V_p·Alpha_p + V_{p:m}·Alpha_mp` with `Alpha_mp[j,k] = C'[k,j]/S_k` for
`C' = Uᵀ·dY·V_{p:m}`; otherwise `dV = V_p·Alpha_p` only. -/
def dV_claim {n m p q : ℕ} (hpq : p ≤ q)
    (dY : Matrix (Fin n) (Fin m) K) (U : Matrix (Fin n) (Fin p) K)
    (S : Fin p → K) (V : Matrix (Fin m) (Fin q) K) : Matrix (Fin m) (Fin p) K :=
  let Vp : Matrix (Fin m) (Fin p) K := V.submatrix id (Fin.castLE hpq)
  let C := (Uᵀ * dY) * Vp
  let Alpha_p : Matrix (Fin p) (Fin p) K := Matrix.of fun j k =>
    if (j : ℕ) < (k : ℕ) then
      (S j * C j k + S k * C k j) / ((S k + S j) * (S k - S j))
    else if (k : ℕ) < (j : ℕ) then
      -((S k * C k j + S j * C j k) / ((S j + S k) * (S j - S k)))
    else 0
  if h : q = m ∧ p < m then
    let Vmp : Matrix (Fin m) (Fin (m - p)) K :=
      Matrix.of fun i j => V i ⟨p + (j : ℕ), by omega⟩
    let C' := (Uᵀ * dY) * Vmp
    let Alpha_mp : Matrix (Fin (m - p)) (Fin p) K :=
      Matrix.of fun j k => C' k j / S k
    Vp * Alpha_p + Vmp * Alpha_mp
  else
    Vp * Alpha_p

section ConcreteInputs

/-- Concrete stand-in for the external `linalg.qr` used by witnesses: on the
witness inputs below its contracts hold definitionally. -/
def qr0 {n p : ℕ} (A : Matrix (Fin n) (Fin p) ℚ) :
    Matrix (Fin n) (Fin p) ℚ × Matrix (Fin p) (Fin p) ℚ :=
  (A, 1)

/-- Concrete stand-in for the external `linalg.solve_triangular` used by
witnesses: solves `R * X = B` for the witness inputs where `R = 1`. -/
def solve0 {p : ℕ} (_R B : Matrix (Fin p) (Fin p) ℚ) : Matrix (Fin p) (Fin p) ℚ :=
  B

/-- Concrete stand-in for the external `linalg.expm` used by witnesses. -/
def expm0 {N : Type} [Fintype N] [DecidableEq N] (A : Matrix N N ℚ) : Matrix N N ℚ :=
  A

/-- Concrete 1×1 Stiefel base point for witnesses. -/
def U1 : Matrix (Fin 1) (Fin 1) ℚ := 1

/-- Concrete 2×2 inputs for the SVD claims: `Y = dY = 0`, orthogonal `U`,
`V`, and a degenerate spectrum `S = (1, 1)` (two coinciding singular
values). -/
def Yc : Matrix (Fin 2) (Fin 2) ℚ := 0

/-- Concrete curve derivative for the SVD claims. -/
def dYc : Matrix (Fin 2) (Fin 2) ℚ := 0

/-- Concrete left factor for the SVD claims. -/
def Uc : Matrix (Fin 2) (Fin 2) ℚ := 1

/-- Concrete singular values for the SVD claims: `S_0 = S_1 = 1`, coinciding
within any tolerance. -/
def Sc : Fin 2 → ℚ := fun _ => 1

/-- Concrete right factor for the SVD claims. -/
def Vc : Matrix (Fin 2) (Fin 2) ℚ := 1

/-- Concrete full square `V` (2×2, with `p = 1 < 2 = m`) for the C8 witness. -/
def Vw : Matrix (Fin 2) (Fin 2) ℚ := 1

/-- Concrete 1×2 snapshot data for the C8 witness. -/
def Yw : Matrix (Fin 1) (Fin 2) ℚ := 0

/-- Concrete 1×2 snapshot derivative for the C8 witness. -/
def dYw : Matrix (Fin 1) (Fin 2) ℚ := 0

/-- Concrete 1×1 left factor for the C8 witness. -/
def Uw : Matrix (Fin 1) (Fin 1) ℚ := 1

/-- Concrete singular value for the C8 witness. -/
def Sw : Fin 1 → ℚ := fun _ => 1

end ConcreteInputs

/-- The `n`-th coefficient matrix of the directional derivative of the power
series of the matrix exponential: `Dser (n+1) = M·Dser n + dM·Mⁿ`, so that
`Dser n = Σ_{i+j=n-1} Mⁱ·dM·Mʲ = d/dt (M + t·dM)ⁿ |_{t=0}`. -/
def Dser {N : Type} [Fintype N] [DecidableEq N] (M dM : Matrix N N ℝ) : ℕ → Matrix N N ℝ
  | 0 => 0
  | (k + 1) => M * Dser M dM k + dM * M ^ k

/-- The Fréchet derivative of the matrix exponential at `M` in direction `dM`,
as the sum of the term-wise differentiated exponential series. -/
noncomputable def dexpSeries {N : Type} [Fintype N] [DecidableEq N]
    (M dM : Matrix N N ℝ) : Matrix N N ℝ :=
  tsum (fun n : ℕ => ((Nat.factorial n : ℝ))⁻¹ • Dser M dM n)

section TriangularLemmas

lemma zero_strict_lower_eq_self {p : ℕ} {M : Matrix (Fin p) (Fin p) K}
    (h : IsUpperTri M) : zero_strict_lower M = M := by
  ext i j
  simp only [zero_strict_lower, Matrix.of_apply]
  split_ifs with hij
  · exact (h i j hij).symm
  · rfl

lemma IsUpperTri.mul {p : ℕ} {A B : Matrix (Fin p) (Fin p) K}
    (hA : IsUpperTri A) (hB : IsUpperTri B) : IsUpperTri (A * B) := by
  intro i j hij
  rw [Matrix.mul_apply]
  apply Finset.sum_eq_zero
  intro k _
  rcases le_or_lt (k : ℕ) (j : ℕ) with hk | hk
  · rw [hA i k (lt_of_le_of_lt hk hij), zero_mul]
  · rw [hB k j hk, mul_zero]

/-- A right inverse of an invertible upper triangular matrix is upper
triangular (hence the `solve_triangular` output is unchanged by the zeroing
clean-up). -/
lemma IsUpperTri.of_right_inverse {p : ℕ} {R X : Matrix (Fin p) (Fin p) K}
    (hR : IsUpperTri R) (h : R * X = 1) : IsUpperTri X := by
  letI := Matrix.invertibleOfRightInverse R X h
  have hbt : R.BlockTriangular (id : Fin p → Fin p) := fun i j hij => hR i j hij
  have hX : X = R⁻¹ := (Matrix.inv_eq_right_inv h).symm
  have hinv := Matrix.blockTriangular_inv_of_blockTriangular hbt
  intro i j hij
  rw [hX]
  exact hinv hij

end TriangularLemmas

/-- C4: for every base point `A0` and direction `V`, as long as the external
QR factor `Q` has orthonormal columns (`QᵀQ = 1`, the contract of a thin QR of
a full-column-rank `A0`), the outputs of `Stiefel_diff_QR` satisfy
`Qᵀ·dQ + (Qᵀ·dQ)ᵀ = 0`, i.e. `Qᵀ·dQ` is skew-symmetric. -/
theorem Stiefel_diff_QR_tangency {n p : ℕ}
    (qr : Matrix (Fin n) (Fin p) K → Matrix (Fin n) (Fin p) K × Matrix (Fin p) (Fin p) K)
    (solve_triangular : Matrix (Fin p) (Fin p) K → Matrix (Fin p) (Fin p) K →
      Matrix (Fin p) (Fin p) K)
    (A0 V : Matrix (Fin n) (Fin p) K)
    (hQ : (qr A0).1ᵀ * (qr A0).1 = 1) :
    (Stiefel_diff_QR qr solve_triangular A0 V).1ᵀ
        * (Stiefel_diff_QR qr solve_triangular A0 V).2.1
      + ((Stiefel_diff_QR qr solve_triangular A0 V).1ᵀ
        * (Stiefel_diff_QR qr solve_triangular A0 V).2.1)ᵀ = 0 := by
  simp only [Stiefel_diff_QR]
  generalize (qr A0).1 = Q at hQ ⊢
  generalize zero_strict_lower (solve_triangular (qr A0).2 1) = Rinv
  generalize select_lower ((Qᵀ * V) * Rinv) = L
  have h1 : Qᵀ * ((V - Q * (Qᵀ * V)) * Rinv + Q * (L - Lᵀ)) = L - Lᵀ := by
    rw [Matrix.mul_add, ← Matrix.mul_assoc, Matrix.mul_sub, ← Matrix.mul_assoc, hQ,
      Matrix.one_mul, sub_self, Matrix.zero_mul, zero_add, ← Matrix.mul_assoc, hQ,
      Matrix.one_mul]
  rw [h1, Matrix.transpose_sub, Matrix.transpose_transpose]
  abel

/-- C4 witness: the hypothesis of `Stiefel_diff_QR_tangency` holds at the
concrete input `A0 = V = 1` (1×1) with the concrete external routines, and the
theorem applies. -/
theorem Stiefel_diff_QR_tangency_witness :
    (Stiefel_diff_QR qr0 solve0 U1 U1).1ᵀ * (Stiefel_diff_QR qr0 solve0 U1 U1).2.1
      + ((Stiefel_diff_QR qr0 solve0 U1 U1).1ᵀ
        * (Stiefel_diff_QR qr0 solve0 U1 U1).2.1)ᵀ = 0 :=
  Stiefel_diff_QR_tangency qr0 solve0 U1 U1 (by simp [qr0, U1])

/-- C1: for every base point `A0` and direction `V`, as long as the external
QR routine returns an upper triangular `R` and the external triangular solve
returns a right inverse of `R` (its contract; `R` is invertible exactly when
`A0` has full column rank), the outputs of `Stiefel_diff_QR` satisfy the exact
reconstruction identity `dQ·R + Q·dR = V`. -/
theorem Stiefel_diff_QR_reconstruction {n p : ℕ}
    (qr : Matrix (Fin n) (Fin p) K → Matrix (Fin n) (Fin p) K × Matrix (Fin p) (Fin p) K)
    (solve_triangular : Matrix (Fin p) (Fin p) K → Matrix (Fin p) (Fin p) K →
      Matrix (Fin p) (Fin p) K)
    (A0 V : Matrix (Fin n) (Fin p) K)
    (hR : IsUpperTri (qr A0).2)
    (hinv : (qr A0).2 * solve_triangular (qr A0).2 1 = 1) :
    (Stiefel_diff_QR qr solve_triangular A0 V).2.1
        * (Stiefel_diff_QR qr solve_triangular A0 V).2.2.1
      + (Stiefel_diff_QR qr solve_triangular A0 V).1
        * (Stiefel_diff_QR qr solve_triangular A0 V).2.2.2 = V := by
  have hX : IsUpperTri (solve_triangular (qr A0).2 1) := hR.of_right_inverse hinv
  have h2 : solve_triangular (qr A0).2 1 * (qr A0).2 = 1 := Matrix.mul_eq_one_comm.mp hinv
  simp only [Stiefel_diff_QR]
  rw [zero_strict_lower_eq_self hX]
  generalize solve_triangular (qr A0).2 1 = X at h2 hX ⊢
  generalize (qr A0).2 = R at h2 hR ⊢
  generalize (qr A0).1 = Q
  generalize Qᵀ * V = W
  generalize hgL : select_lower (W * X) = L
  have hT : IsUpperTri (W * X - (L - Lᵀ)) := by
    intro i j hij
    have e1 : L i j = (W * X) i j := by rw [← hgL]; exact if_pos hij
    have e0 : L j i = 0 := by rw [← hgL]; exact if_neg (by omega)
    simp only [Matrix.sub_apply, Matrix.transpose_apply, e1, e0]
    ring
  have hdR : IsUpperTri (W - (L - Lᵀ) * R) := by
    have key : W - (L - Lᵀ) * R = (W * X - (L - Lᵀ)) * R := by
      rw [Matrix.sub_mul (W * X) (L - Lᵀ) R, Matrix.mul_assoc W X R, h2, Matrix.mul_one]
    rw [key]
    exact hT.mul hR
  rw [zero_strict_lower_eq_self hdR, Matrix.add_mul, Matrix.mul_assoc (V - Q * W) X R, h2,
    Matrix.mul_one, Matrix.mul_sub Q W ((L - Lᵀ) * R), Matrix.mul_assoc Q (L - Lᵀ) R]
  abel

/-- C1 witness: the hypotheses of `Stiefel_diff_QR_reconstruction` hold at the
concrete input `A0 = V = 1` (1×1) with the concrete external routines, and the
theorem applies. -/
theorem Stiefel_diff_QR_reconstruction_witness :
    (Stiefel_diff_QR qr0 solve0 U1 U1).2.1 * (Stiefel_diff_QR qr0 solve0 U1 U1).2.2.1
      + (Stiefel_diff_QR qr0 solve0 U1 U1).1 * (Stiefel_diff_QR qr0 solve0 U1 U1).2.2.2
      = U1 :=
  Stiefel_diff_QR_reconstruction qr0 solve0 U1 U1
    (fun i j hij => absurd hij (by omega))
    (by simp [qr0, solve0])

@[simp] lemma select_lower_zero {p : ℕ} :
    select_lower (0 : Matrix (Fin p) (Fin p) K) = 0 := by
  ext i j
  simp [select_lower]

@[simp] lemma zero_strict_lower_zero {p : ℕ} :
    zero_strict_lower (0 : Matrix (Fin p) (Fin p) K) = 0 := by
  ext i j
  simp [zero_strict_lower]

@[simp] lemma of_const_zero {N M : Type} :
    (Matrix.of fun (_ : N) (_ : M) => (0 : K)) = 0 := rfl

@[simp] lemma fun_const_zero {N : Type} : (fun (_ : N) => (0 : K)) = 0 := rfl

@[simp] lemma diagonal_zero_fn {N : Type} [DecidableEq N] :
    Matrix.diagonal (0 : N → K) = 0 := Matrix.diagonal_zero

@[simp] lemma toBlocks_zero₁₁ {N₁ N₂ M₁ M₂ : Type} :
    (0 : Matrix (N₁ ⊕ N₂) (M₁ ⊕ M₂) K).toBlocks₁₁ = 0 := rfl

@[simp] lemma toBlocks_zero₁₂ {N₁ N₂ M₁ M₂ : Type} :
    (0 : Matrix (N₁ ⊕ N₂) (M₁ ⊕ M₂) K).toBlocks₁₂ = 0 := rfl

/-- C7: for every input with `|alpha| ≤ 1e-10` (canonical metric), no error is
raised, the second exponential pair is not used, and the returned value is
exactly the canonical combination
`dQ·expM_I0[p:2p,0:p] + U·dexpM_I0[0:p,0:p] + Q·dexpM_I0[p:2p,0:p]`
(`canonical_combination` spells out the claim's formula). -/
theorem Stiefel_diff_exp_canonical {n p : ℕ}
    (qr : Matrix (Fin n) (Fin p) K → Matrix (Fin n) (Fin p) K × Matrix (Fin p) (Fin p) K)
    (solve_triangular : Matrix (Fin p) (Fin p) K → Matrix (Fin p) (Fin p) K →
      Matrix (Fin p) (Fin p) K)
    (expm : ∀ {N : Type} [Fintype N] [DecidableEq N], Matrix N N K → Matrix N N K)
    (U Delta V : Matrix (Fin n) (Fin p) K) (metric_alpha : K)
    (h : |metric_alpha| ≤ 1/10^10) :
    Stiefel_diff_exp qr solve_triangular expm U Delta V metric_alpha
      = Except.ok (canonical_combination qr solve_triangular expm U Delta V metric_alpha) := by
  obtain ⟨hlo, hhi⟩ := abs_le.mp h
  have h1 : ¬(metric_alpha + 1 = 0) := by intro h0; rw [eq_neg_of_add_eq_zero_left h0] at hlo; norm_num at hlo
  have h3 : ¬(|metric_alpha| > 1/10^10 ∧ |metric_alpha + 1| > 1/10^10) :=
    fun hc => absurd hc.1 (not_lt.mpr h)
  simp only [Stiefel_diff_exp, Stiefel_diff_exp_core, canonical_combination, if_neg h1,
    if_neg h3]

/-- C7 witness: at `alpha = 0` with concrete 1×1 inputs the hypothesis holds
and the theorem applies. -/
theorem Stiefel_diff_exp_canonical_witness :
    Stiefel_diff_exp qr0 solve0 expm0 U1 0 0 0
      = Except.ok (canonical_combination qr0 solve0 expm0 U1 0 0 0) :=
  Stiefel_diff_exp_canonical qr0 solve0 expm0 U1 0 0 0 (by norm_num)

/-- C9: inputs whose `UᵀDelta` is not skew-symmetric are not rejected:
`Stiefel_diff_exp` is literally the core computation run on the symmetrised
values `A0 = (UᵀDelta − (UᵀDelta)ᵀ)/2` and `dA0 = (UᵀV − (UᵀV)ᵀ)/2` (which all
subsequent steps use), and whenever `alpha + 1 ≠ 0` it returns a result. -/
theorem Stiefel_diff_exp_symmetrizes {n p : ℕ}
    (qr : Matrix (Fin n) (Fin p) K → Matrix (Fin n) (Fin p) K × Matrix (Fin p) (Fin p) K)
    (solve_triangular : Matrix (Fin p) (Fin p) K → Matrix (Fin p) (Fin p) K →
      Matrix (Fin p) (Fin p) K)
    (expm : ∀ {N : Type} [Fintype N] [DecidableEq N], Matrix N N K → Matrix N N K)
    (U Delta V : Matrix (Fin n) (Fin p) K) (metric_alpha : K)
    (h : (Uᵀ * Delta)ᵀ ≠ -(Uᵀ * Delta)) :
    Stiefel_diff_exp qr solve_triangular expm U Delta V metric_alpha
        = Stiefel_diff_exp_core qr solve_triangular expm U Delta V
            (skew_part (Uᵀ * Delta)) (skew_part (Uᵀ * V)) metric_alpha
      ∧ (metric_alpha + 1 ≠ 0 → ∃ out,
          Stiefel_diff_exp qr solve_triangular expm U Delta V metric_alpha
            = Except.ok out) := by
  refine ⟨rfl, fun h0 => ?_⟩
  simp only [Stiefel_diff_exp, Stiefel_diff_exp_core, if_neg h0]
  by_cases hc : |metric_alpha| > 1/10^10 ∧ |metric_alpha + 1| > 1/10^10
  · rw [if_pos hc]; exact ⟨_, rfl⟩
  · rw [if_neg hc]; exact ⟨_, rfl⟩

/-- C9 witness: `U = Delta = 1` (1×1) has `UᵀDelta = 1` not skew, the theorem
applies with `alpha = 0`, and its conclusion instantiates. -/
theorem Stiefel_diff_exp_symmetrizes_witness :
    (Stiefel_diff_exp qr0 solve0 expm0 U1 U1 0 0
        = Stiefel_diff_exp_core qr0 solve0 expm0 U1 U1 0
            (skew_part (U1ᵀ * U1)) (skew_part (U1ᵀ * 0)) 0)
      ∧ ∃ out, Stiefel_diff_exp qr0 solve0 expm0 U1 U1 0 0 = Except.ok out := by
  have hns : (U1ᵀ * U1)ᵀ ≠ -(U1ᵀ * U1) := by
    simp only [U1, Matrix.transpose_one, Matrix.one_mul]
    intro heq
    have h00 := congrFun (congrFun heq 0) 0
    simp only [Matrix.one_apply_eq, Matrix.neg_apply] at h00
    norm_num at h00
  have h := Stiefel_diff_exp_symmetrizes qr0 solve0 expm0 U1 U1 0 0 hns
  exact ⟨h.1, h.2 (by norm_num)⟩

/-- C2 (amended): `Stiefel_diff_exp` performs no validation of the metric
parameter: over the claim's domain `alpha ≤ -1` or `|alpha + 1| ≤ 1e-10`, it
returns a result exactly when `alpha + 1 ≠ 0`; only at exactly `alpha = -1`
does it fail, with a float division-by-zero error, and no
`InvalidMetricParameter`-style check exists. -/
theorem Stiefel_diff_exp_no_metric_validation {n p : ℕ}
    (qr : Matrix (Fin n) (Fin p) K → Matrix (Fin n) (Fin p) K × Matrix (Fin p) (Fin p) K)
    (solve_triangular : Matrix (Fin p) (Fin p) K → Matrix (Fin p) (Fin p) K →
      Matrix (Fin p) (Fin p) K)
    (expm : ∀ {N : Type} [Fintype N] [DecidableEq N], Matrix N N K → Matrix N N K)
    (U Delta V : Matrix (Fin n) (Fin p) K) (metric_alpha : K)
    (h : metric_alpha ≤ -1 ∨ |metric_alpha + 1| ≤ 1/10^10) :
    (∃ out, Stiefel_diff_exp qr solve_triangular expm U Delta V metric_alpha
        = Except.ok out)
      ↔ metric_alpha + 1 ≠ 0 := by
  constructor
  · rintro ⟨out, hout⟩ h0
    simp only [Stiefel_diff_exp, Stiefel_diff_exp_core, if_pos h0] at hout
    exact Except.noConfusion hout
  · intro h0
    simp only [Stiefel_diff_exp, Stiefel_diff_exp_core, if_neg h0]
    by_cases hc : |metric_alpha| > 1/10^10 ∧ |metric_alpha + 1| > 1/10^10
    · rw [if_pos hc]; exact ⟨_, rfl⟩
    · rw [if_neg hc]; exact ⟨_, rfl⟩

/-- C2 witness: at `alpha = -2` (in the claim's domain, away from `-1`) the
amended theorem yields a returned result. -/
theorem Stiefel_diff_exp_no_metric_validation_witness :
    ∃ out, Stiefel_diff_exp qr0 solve0 expm0 U1 0 0 (-2 : ℚ) = Except.ok out :=
  (Stiefel_diff_exp_no_metric_validation qr0 solve0 expm0 U1 0 0 (-2)
    (Or.inl (by norm_num))).mpr (by norm_num)

/-- C2 counterexample: `alpha = -2 ≤ -1` is in the claim's domain, yet
`Stiefel_diff_exp` raises nothing and returns a result (the zero matrix at
this concrete input), contradicting `fails with an InvalidMetricParameter
error rather than returning a result`. -/
theorem Stiefel_diff_exp_no_metric_validation_counterexample :
    (-2 : ℚ) ≤ -1 ∧
      Stiefel_diff_exp qr0 solve0 expm0 U1 0 0 (-2 : ℚ) = Except.ok 0 := by
  refine ⟨by norm_num, ?_⟩
  norm_num [Stiefel_diff_exp, Stiefel_diff_exp_core, Stiefel_diff_QR, diff_expm,
    skew_part, qr0, solve0, expm0, abs_neg, abs_two]

/-- C10 (amended): for `|alpha| > 1e-10` and `|alpha + 1| ≤ 1e-10` with
`alpha ≠ -1`, no error is raised and the canonical-metric (else-branch)
combination is returned even though the metric is degenerate there; at
exactly `alpha = -1` a division-by-zero error occurs instead. -/
theorem Stiefel_diff_exp_alpha_near_neg_one {n p : ℕ}
    (qr : Matrix (Fin n) (Fin p) K → Matrix (Fin n) (Fin p) K × Matrix (Fin p) (Fin p) K)
    (solve_triangular : Matrix (Fin p) (Fin p) K → Matrix (Fin p) (Fin p) K →
      Matrix (Fin p) (Fin p) K)
    (expm : ∀ {N : Type} [Fintype N] [DecidableEq N], Matrix N N K → Matrix N N K)
    (U Delta V : Matrix (Fin n) (Fin p) K) (metric_alpha : K)
    (h1 : |metric_alpha| > 1/10^10) (h2 : |metric_alpha + 1| ≤ 1/10^10)
    (h3 : metric_alpha + 1 ≠ 0) :
    Stiefel_diff_exp qr solve_triangular expm U Delta V metric_alpha
      = Except.ok (canonical_combination qr solve_triangular expm U Delta V metric_alpha) := by
  have hc : ¬(|metric_alpha| > 1/10^10 ∧ |metric_alpha + 1| > 1/10^10) :=
    fun hc => absurd hc.2 (not_lt.mpr h2)
  simp only [Stiefel_diff_exp, Stiefel_diff_exp_core, canonical_combination, if_neg h3,
    if_neg hc]

/-- C10 witness: `alpha = -1 + 10⁻¹⁰` satisfies all three hypotheses and the
theorem applies at concrete 1×1 inputs. -/
theorem Stiefel_diff_exp_alpha_near_neg_one_witness :
    Stiefel_diff_exp qr0 solve0 expm0 U1 0 0 (-1 + 1/10^10 : ℚ)
      = Except.ok (canonical_combination qr0 solve0 expm0 U1 0 0 (-1 + 1/10^10 : ℚ)) :=
  Stiefel_diff_exp_alpha_near_neg_one qr0 solve0 expm0 U1 0 0 (-1 + 1/10^10 : ℚ)
    (by rw [abs_of_neg (by norm_num : (-1 + 1/10^10 : ℚ) < 0)]; norm_num)
    (by rw [show (-1 + 1/10^10 + 1 : ℚ) = 1/10^10 by norm_num,
         abs_of_nonneg (by norm_num : (0:ℚ) ≤ 1/10^10)])
    (by norm_num)

/-- C10 counterexample: `alpha = -1` lies in the claim's domain
(`|alpha| > 1e-10` and `|alpha + 1| ≤ 1e-10`), yet the function raises a
division-by-zero error rather than returning the else-branch value, so the
claim's `raises no error` fails at this input. -/
theorem Stiefel_diff_exp_alpha_near_neg_one_counterexample :
    |(-1 : ℚ)| > 1/10^10 ∧ |(-1 : ℚ) + 1| ≤ 1/10^10 ∧
      Stiefel_diff_exp qr0 solve0 expm0 U1 0 0 (-1 : ℚ)
        = Except.error PyErr.zeroDivisionError := by
  refine ⟨by norm_num [abs_neg, abs_one], by norm_num, ?_⟩
  simp only [Stiefel_diff_exp, Stiefel_diff_exp_core]
  norm_num

/-- C8: the `dV` output of `Stiefel_diff_SVD` equals the claim's case split:
`V_p·Alpha_p + V_{p:m}·Alpha_mp` (with `Alpha_mp[j,k] = C'[k,j]/S_k`,
`C' = Uᵀ·dY·V_{p:m}`) when the supplied `V` is square `m×m` with `m > p`, and
`V_p·Alpha_p` alone otherwise (thin `V` or `m = p`). -/
theorem Stiefel_diff_SVD_dV_cases {n m p q : ℕ} (hpq : p ≤ q)
    (Y dY : Matrix (Fin n) (Fin m) K) (U : Matrix (Fin n) (Fin p) K)
    (S : Fin p → K) (V : Matrix (Fin m) (Fin q) K) :
    (Stiefel_diff_SVD hpq Y dY U S V).dV = dV_claim hpq dY U S V :=
  rfl

/-- C8 witness: the shape hypothesis `p ≤ q` holds at the concrete full-`V`
input (`n = p = 1`, `m = q = 2`) and the theorem applies. -/
theorem Stiefel_diff_SVD_dV_cases_witness :
    (Stiefel_diff_SVD (by norm_num : 1 ≤ 2) Yw dYw Uw Sw Vw).dV
      = dV_claim (by norm_num : 1 ≤ 2) dYw Uw Sw Vw :=
  Stiefel_diff_SVD_dV_cases (by norm_num) Yw dYw Uw Sw Vw

/-- C3 (amended): `Stiefel_diff_SVD` performs no validation of the spectrum:
even when singular values coincide (or vanish) it raises nothing and returns
the same algebraic output — in particular `dS` is still the bilinear form
`U_kᵀ·dY·V_k`; in floating point the degenerate divisions produce IEEE
non-finite values at the affected `Alpha`/`S_inv` entries, never an
exception. -/
theorem Stiefel_diff_SVD_no_spectrum_check {n m p q : ℕ} (hpq : p ≤ q)
    (Y dY : Matrix (Fin n) (Fin m) K) (U : Matrix (Fin n) (Fin p) K)
    (S : Fin p → K) (V : Matrix (Fin m) (Fin q) K)
    (hdeg : (∃ j k : Fin p, j ≠ k ∧ S j = S k) ∨ ∃ k : Fin p, S k = 0) :
    (Stiefel_diff_SVD hpq Y dY U S V).dS
      = fun k => dotProduct (fun i => U i k) (dY.mulVec fun j => V j (Fin.castLE hpq k)) :=
  rfl

/-- C3 witness: the degenerate spectrum `S = (1, 1)` satisfies the hypothesis
and the theorem applies at the concrete input. -/
theorem Stiefel_diff_SVD_no_spectrum_check_witness :
    (Stiefel_diff_SVD (le_refl 2) Yc dYc Uc Sc Vc).dS
      = fun k => dotProduct (fun i => Uc i k) (dYc.mulVec fun j => Vc j (Fin.castLE (le_refl 2) k)) :=
  Stiefel_diff_SVD_no_spectrum_check (le_refl 2) Yc dYc Uc Sc Vc
    (Or.inl ⟨0, 1, by decide, rfl⟩)

/-- C3 counterexample: at the concrete input whose singular values coincide
(`S_0 = S_1 = 1`), `Stiefel_diff_SVD` raises nothing and returns a result
(here the explicit zero tuple), contradicting `raises NearDegenerateSpectrum
instead of returning a result`. -/
theorem Stiefel_diff_SVD_no_spectrum_check_counterexample :
    Sc 0 = Sc 1 ∧
      Stiefel_diff_SVD (le_refl 2) Yc dYc Uc Sc Vc = ⟨0, 0, 0, 0, 0, 0⟩ := by
  refine ⟨rfl, ?_⟩
  have hcond : ¬(2 = 2 ∧ 2 < 2) := by norm_num
  simp only [Stiefel_diff_SVD, Yc, dYc, Uc, Sc, Vc, dif_neg hcond]
  norm_num [Matrix.zero_mulVec, Matrix.dotProduct_zero, Matrix.diagonal_zero]

section MatrixExpMathias

open NormedSpace

attribute [local instance] Matrix.linftyOpSemiNormedRing Matrix.linftyOpNormedRing
  Matrix.linftyOpNormedAlgebra

variable {N : Type} [Fintype N] [DecidableEq N]

lemma fromBlocks_pow (M dM : Matrix N N ℝ) (k : ℕ) :
    Matrix.fromBlocks M dM 0 M ^ k
      = Matrix.fromBlocks (M ^ k) (Dser M dM k) 0 (M ^ k) := by
  induction k with
  | zero => simp [Dser]
  | succ k ih =>
      rw [pow_succ', ih, Matrix.fromBlocks_multiply]
      simp [Dser, pow_succ']

lemma matrix_norm_one_le : ‖(1 : Matrix N N ℝ)‖ ≤ 1 := by
  rcases isEmpty_or_nonempty N with h | h
  · haveI := h
    have h0 : (1 : Matrix N N ℝ) = 0 := by
      ext i j
      exact (IsEmpty.false i).elim
    rw [h0, norm_zero]
    norm_num
  · haveI := h
    exact norm_one.le

lemma norm_pow_le_bound (M : Matrix N N ℝ) {c : ℝ} (hM : ‖M‖ ≤ c) (h1 : 1 ≤ c) (n : ℕ) :
    ‖M ^ n‖ ≤ c ^ n := by
  cases n with
  | zero => simpa using matrix_norm_one_le (N := N)
  | succ k =>
      calc ‖M ^ (k + 1)‖ ≤ ‖M‖ ^ (k + 1) := norm_pow_le' M (Nat.succ_pos k)
        _ ≤ c ^ (k + 1) := pow_le_pow_left (norm_nonneg M) hM _

lemma norm_Dser_le (M dM : Matrix N N ℝ) (n : ℕ) :
    ‖Dser M dM n‖ ≤ (2 * (‖M‖ + ‖dM‖ + 1)) ^ n := by
  have hM0 : (0:ℝ) ≤ ‖M‖ := norm_nonneg M
  have hdM0 : (0:ℝ) ≤ ‖dM‖ := norm_nonneg dM
  set c : ℝ := ‖M‖ + ‖dM‖ + 1 with hc
  have hc1 : (1:ℝ) ≤ c := by rw [hc]; linarith
  have hc0 : (0:ℝ) ≤ c := by linarith
  induction n with
  | zero => simp [Dser]
  | succ n ih =>
      have hMc : ‖M‖ ≤ c := by rw [hc]; linarith
      have hdMc : ‖dM‖ ≤ c := by rw [hc]; linarith
      have hpow : ‖M ^ n‖ ≤ c ^ n := norm_pow_le_bound M hMc hc1 n
      have hcn : (0:ℝ) ≤ c ^ n := pow_nonneg hc0 n
      have h2cn : (0:ℝ) ≤ (2 * c) ^ n := pow_nonneg (by linarith) n
      have hcle : c ^ n ≤ (2 * c) ^ n :=
        pow_le_pow_left hc0 (by linarith) n
      calc ‖Dser M dM (n + 1)‖ = ‖M * Dser M dM n + dM * M ^ n‖ := rfl
        _ ≤ ‖M * Dser M dM n‖ + ‖dM * M ^ n‖ := norm_add_le _ _
        _ ≤ ‖M‖ * ‖Dser M dM n‖ + ‖dM‖ * ‖M ^ n‖ :=
            add_le_add (norm_mul_le _ _) (norm_mul_le _ _)
        _ ≤ c * (2 * c) ^ n + c * c ^ n := by
            gcongr
        _ ≤ c * (2 * c) ^ n + c * (2 * c) ^ n := by gcongr
        _ = (2 * c) ^ (n + 1) := by ring

lemma remainder_recurrence (M dM : Matrix N N ℝ) (t : ℝ) (n : ℕ) :
    (M + t • dM) ^ (n + 1) - M ^ (n + 1) - t • Dser M dM (n + 1)
      = M * ((M + t • dM) ^ n - M ^ n - t • Dser M dM n)
        + t • (dM * ((M + t • dM) ^ n - M ^ n - t • Dser M dM n))
        + (t * t) • (dM * Dser M dM n) := by
  have hD : Dser M dM (n + 1) = M * Dser M dM n + dM * M ^ n := rfl
  rw [pow_succ', pow_succ' M n, hD]
  simp only [add_mul, mul_sub, mul_add, smul_mul_assoc, mul_smul_comm, smul_sub, smul_add,
    smul_smul]
  abel

lemma remainder_bound (M dM : Matrix N N ℝ) {t : ℝ} (ht : |t| ≤ 1) (n : ℕ) :
    ‖(M + t • dM) ^ n - M ^ n - t • Dser M dM n‖
      ≤ t ^ 2 * (3 * (‖M‖ + ‖dM‖ + 1)) ^ n := by
  have hM0 : (0:ℝ) ≤ ‖M‖ := norm_nonneg M
  have hdM0 : (0:ℝ) ≤ ‖dM‖ := norm_nonneg dM
  set c : ℝ := ‖M‖ + ‖dM‖ + 1 with hc
  have hc1 : (1:ℝ) ≤ c := by rw [hc]; linarith
  have hc0 : (0:ℝ) ≤ c := by linarith
  set KK : ℝ := 3 * c with hK
  induction n with
  | zero =>
      simp only [pow_zero, sub_self, zero_sub, Dser, smul_zero, neg_zero, norm_zero]
      positivity
  | succ n ih =>
      have hMc : ‖M‖ ≤ c := by rw [hc]; linarith
      have hdMc : ‖dM‖ ≤ c := by rw [hc]; linarith
      have h2c : (2 * c) ^ n ≤ KK ^ n :=
        pow_le_pow_left₀ (by linarith) (by rw [hK]; linarith) n
      have hD' : ‖Dser M dM n‖ ≤ KK ^ n := by
        have := norm_Dser_le M dM n
        rw [← hc] at this
        exact this.trans h2c
      have hKn0 : (0:ℝ) ≤ KK ^ n := pow_nonneg (by rw [hK]; linarith) n
      have t2 : (0:ℝ) ≤ t ^ 2 := sq_nonneg t
      rw [remainder_recurrence M dM t n]
      set Rn := (M + t • dM) ^ n - M ^ n - t • Dser M dM n with hRn
      have hRn0 : (0:ℝ) ≤ ‖Rn‖ := norm_nonneg _
      have hb1 : ‖M * Rn‖ ≤ c * (t ^ 2 * KK ^ n) :=
        (norm_mul_le M Rn).trans (mul_le_mul hMc ih hRn0 hc0)
      have hb2 : ‖t • (dM * Rn)‖ ≤ 1 * (c * (t ^ 2 * KK ^ n)) := by
        rw [norm_smul, Real.norm_eq_abs]
        exact mul_le_mul ht ((norm_mul_le dM Rn).trans
          (mul_le_mul hdMc ih hRn0 hc0)) (norm_nonneg _) zero_le_one
      have hb3 : ‖(t * t) • (dM * Dser M dM n)‖ ≤ t ^ 2 * (c * KK ^ n) := by
        rw [norm_smul, Real.norm_eq_abs, abs_mul_self, ← pow_two]
        exact mul_le_mul_of_nonneg_left ((norm_mul_le dM (Dser M dM n)).trans
          (mul_le_mul hdMc hD' (norm_nonneg _) hc0)) t2
      calc ‖M * Rn + t • (dM * Rn) + (t * t) • (dM * Dser M dM n)‖
          ≤ ‖M * Rn‖ + ‖t • (dM * Rn)‖ + ‖(t * t) • (dM * Dser M dM n)‖ :=
            norm_add₃_le
        _ ≤ c * (t ^ 2 * KK ^ n) + 1 * (c * (t ^ 2 * KK ^ n)) + t ^ 2 * (c * KK ^ n) :=
            add_le_add (add_le_add hb1 hb2) hb3
        _ = t ^ 2 * KK ^ (n + 1) := by rw [hK]; ring

@[simp] lemma toBlocks₁₁_smul (r : ℝ) (A : Matrix (N ⊕ N) (N ⊕ N) ℝ) :
    (r • A).toBlocks₁₁ = r • A.toBlocks₁₁ := rfl

@[simp] lemma toBlocks₁₂_smul (r : ℝ) (A : Matrix (N ⊕ N) (N ⊕ N) ℝ) :
    (r • A).toBlocks₁₂ = r • A.toBlocks₁₂ := rfl

@[simp] lemma toBlocks₂₁_smul (r : ℝ) (A : Matrix (N ⊕ N) (N ⊕ N) ℝ) :
    (r • A).toBlocks₂₁ = r • A.toBlocks₂₁ := rfl

@[simp] lemma toBlocks₂₂_smul (r : ℝ) (A : Matrix (N ⊕ N) (N ⊕ N) ℝ) :
    (r • A).toBlocks₂₂ = r • A.toBlocks₂₂ := rfl

lemma summable_inv_factorial_mul_pow (r : ℝ) :
    Summable (fun n : ℕ => ((Nat.factorial n : ℝ))⁻¹ * r ^ n) :=
  (Real.summable_pow_div_factorial r).congr fun n => by
    rw [div_eq_mul_inv, mul_comm]

lemma summable_Dser (M dM : Matrix N N ℝ) :
    Summable (fun n : ℕ => ((Nat.factorial n : ℝ))⁻¹ • Dser M dM n) := by
  apply Summable.of_norm_bounded _
    (summable_inv_factorial_mul_pow (2 * (‖M‖ + ‖dM‖ + 1)))
  intro n
  rw [norm_smul, Real.norm_eq_abs, abs_inv, Nat.abs_cast]
  exact mul_le_mul_of_nonneg_left (norm_Dser_le M dM n) (by positivity)

lemma hasSum_dexpSeries (M dM : Matrix N N ℝ) :
    HasSum (fun n : ℕ => ((Nat.factorial n : ℝ))⁻¹ • Dser M dM n) (dexpSeries M dM) :=
  (summable_Dser M dM).hasSum

lemma exp_fromBlocks (M dM : Matrix N N ℝ) :
    exp ℝ (Matrix.fromBlocks M dM 0 M)
      = Matrix.fromBlocks (exp ℝ M) (dexpSeries M dM) 0 (exp ℝ M) := by
  have hcont : ∀ e₁ e₂ : N → N ⊕ N, Continuous
      (fun A : Matrix (N ⊕ N) (N ⊕ N) ℝ => A.submatrix e₁ e₂) :=
    fun e₁ e₂ => continuous_id.matrix_submatrix e₁ e₂
  have hAux : HasSum
      (fun n : ℕ => ((Nat.factorial n : ℝ))⁻¹ • Matrix.fromBlocks M dM 0 M ^ n)
      (exp ℝ (Matrix.fromBlocks M dM 0 M)) := exp_series_hasSum_exp' _
  have h11 : (exp ℝ (Matrix.fromBlocks M dM 0 M)).toBlocks₁₁ = exp ℝ M := by
    have hm := hAux.map (AddMonoidHom.mk' (Matrix.toBlocks₁₁) fun a b => rfl)
      (hcont Sum.inl Sum.inl)
    simp only [AddMonoidHom.mk'_apply, Function.comp_def, fromBlocks_pow, toBlocks₁₁_smul,
      Matrix.toBlocks_fromBlocks₁₁] at hm
    exact hm.unique (exp_series_hasSum_exp' M)
  have h12 : (exp ℝ (Matrix.fromBlocks M dM 0 M)).toBlocks₁₂ = dexpSeries M dM := by
    have hm := hAux.map (AddMonoidHom.mk' (Matrix.toBlocks₁₂) fun a b => rfl)
      (hcont Sum.inl Sum.inr)
    simp only [AddMonoidHom.mk'_apply, Function.comp_def, fromBlocks_pow, toBlocks₁₂_smul,
      Matrix.toBlocks_fromBlocks₁₂] at hm
    exact hm.unique (hasSum_dexpSeries M dM)
  have h21 : (exp ℝ (Matrix.fromBlocks M dM 0 M)).toBlocks₂₁ = 0 := by
    have hm := hAux.map (AddMonoidHom.mk' (Matrix.toBlocks₂₁) fun a b => rfl)
      (hcont Sum.inr Sum.inl)
    simp only [AddMonoidHom.mk'_apply, Function.comp_def, fromBlocks_pow, toBlocks₂₁_smul,
      Matrix.toBlocks_fromBlocks₂₁, smul_zero] at hm
    exact hm.unique hasSum_zero
  have h22 : (exp ℝ (Matrix.fromBlocks M dM 0 M)).toBlocks₂₂ = exp ℝ M := by
    have hm := hAux.map (AddMonoidHom.mk' (Matrix.toBlocks₂₂) fun a b => rfl)
      (hcont Sum.inr Sum.inr)
    simp only [AddMonoidHom.mk'_apply, Function.comp_def, fromBlocks_pow, toBlocks₂₂_smul,
      Matrix.toBlocks_fromBlocks₂₂] at hm
    exact hm.unique (exp_series_hasSum_exp' M)
  conv_lhs => rw [← Matrix.fromBlocks_toBlocks (exp ℝ (Matrix.fromBlocks M dM 0 M))]
  rw [h11, h12, h21, h22]

lemma hasDerivAt_exp_dir (M dM : Matrix N N ℝ) :
    HasDerivAt (fun t : ℝ => exp ℝ (M + t • dM)) (dexpSeries M dM) 0 := by
  set c : ℝ := ‖M‖ + ‖dM‖ + 1 with hc
  set CK : ℝ := tsum (fun n : ℕ => ((Nat.factorial n : ℝ))⁻¹ * (3 * c) ^ n) with hCK
  have key : ∀ t : ℝ, |t| ≤ 1 →
      ‖exp ℝ (M + t • dM) - exp ℝ M - t • dexpSeries M dM‖ ≤ CK * t ^ 2 := by
    intro t ht
    have h1 : HasSum (fun n : ℕ => ((Nat.factorial n : ℝ))⁻¹ • (M + t • dM) ^ n)
        (exp ℝ (M + t • dM)) := exp_series_hasSum_exp' _
    have h2 : HasSum (fun n : ℕ => ((Nat.factorial n : ℝ))⁻¹ • M ^ n) (exp ℝ M) :=
      exp_series_hasSum_exp' M
    have h3 : HasSum (fun n : ℕ => ((Nat.factorial n : ℝ))⁻¹ • (t • Dser M dM n))
        (t • dexpSeries M dM) := by
      have h := (hasSum_dexpSeries M dM).const_smul t
      have he : (fun n : ℕ => ((Nat.factorial n : ℝ))⁻¹ • (t • Dser M dM n))
          = fun n : ℕ => t • (((Nat.factorial n : ℝ))⁻¹ • Dser M dM n) :=
        funext fun n => smul_comm _ _ _
      rw [he]
      exact h
    have hsum := (h1.sub h2).sub h3
    have he2 : (fun n : ℕ => ((Nat.factorial n : ℝ))⁻¹ • (M + t • dM) ^ n
          - ((Nat.factorial n : ℝ))⁻¹ • M ^ n - ((Nat.factorial n : ℝ))⁻¹ • (t • Dser M dM n))
        = fun n : ℕ => ((Nat.factorial n : ℝ))⁻¹
            • ((M + t • dM) ^ n - M ^ n - t • Dser M dM n) :=
      funext fun n => by rw [smul_sub, smul_sub]
    rw [he2] at hsum
    have hnorms : ∀ n : ℕ,
        ‖((Nat.factorial n : ℝ))⁻¹ • ((M + t • dM) ^ n - M ^ n - t • Dser M dM n)‖
          ≤ ((Nat.factorial n : ℝ))⁻¹ * (3 * c) ^ n * t ^ 2 := by
      intro n
      rw [norm_smul, Real.norm_eq_abs, abs_inv, Nat.abs_cast]
      have hb := remainder_bound M dM ht n
      rw [← hc] at hb
      calc ((Nat.factorial n : ℝ))⁻¹ * ‖(M + t • dM) ^ n - M ^ n - t • Dser M dM n‖
          ≤ ((Nat.factorial n : ℝ))⁻¹ * (t ^ 2 * (3 * c) ^ n) :=
            mul_le_mul_of_nonneg_left hb (by positivity)
        _ = ((Nat.factorial n : ℝ))⁻¹ * (3 * c) ^ n * t ^ 2 := by ring
    have hbound_summable :
        Summable (fun n : ℕ => ((Nat.factorial n : ℝ))⁻¹ * (3 * c) ^ n * t ^ 2) :=
      (summable_inv_factorial_mul_pow (3 * c)).mul_right (t ^ 2)
    have hnorm_summable : Summable (fun n : ℕ =>
        ‖((Nat.factorial n : ℝ))⁻¹ • ((M + t • dM) ^ n - M ^ n - t • Dser M dM n)‖) :=
      Summable.of_nonneg_of_le (fun n => norm_nonneg _) hnorms hbound_summable
    calc ‖exp ℝ (M + t • dM) - exp ℝ M - t • dexpSeries M dM‖
        = ‖tsum (fun n : ℕ => ((Nat.factorial n : ℝ))⁻¹
            • ((M + t • dM) ^ n - M ^ n - t • Dser M dM n))‖ := by rw [hsum.tsum_eq]
      _ ≤ tsum (fun n : ℕ => ‖((Nat.factorial n : ℝ))⁻¹
            • ((M + t • dM) ^ n - M ^ n - t • Dser M dM n)‖) :=
          norm_tsum_le_tsum_norm hnorm_summable
      _ ≤ tsum (fun n : ℕ => ((Nat.factorial n : ℝ))⁻¹ * (3 * c) ^ n * t ^ 2) :=
          tsum_le_tsum hnorms hnorm_summable hbound_summable
      _ = CK * t ^ 2 := by rw [hCK, tsum_mul_right]
  rw [hasDerivAt_iff_isLittleO]
  simp only [zero_smul, add_zero, sub_zero]
  have hbig : (fun t : ℝ => exp ℝ (M + t • dM) - exp ℝ M - t • dexpSeries M dM)
      =O[nhds 0] fun t : ℝ => t ^ 2 := by
    rw [Asymptotics.isBigO_iff]
    refine ⟨CK, ?_⟩
    have hev : ∀ᶠ t : ℝ in nhds 0, |t| ≤ 1 := by
      filter_upwards [Metric.ball_mem_nhds (0:ℝ) one_pos] with t ht
      rw [Metric.mem_ball, Real.dist_eq, sub_zero] at ht
      exact le_of_lt ht
    filter_upwards [hev] with t ht
    calc ‖exp ℝ (M + t • dM) - exp ℝ M - t • dexpSeries M dM‖
        ≤ CK * t ^ 2 := key t ht
      _ = CK * ‖t ^ 2‖ := by rw [Real.norm_eq_abs, abs_of_nonneg (sq_nonneg t)]
  exact hbig.trans_isLittleO (Asymptotics.isLittleO_pow_id one_lt_two)

/-- C5: `diff_expm M dM` builds `Aux = [[M, dM],[0, M]]` and returns exactly
the top-left and top-right `p×p` blocks of `exp(Aux)`; with the genuine matrix
exponential as the external routine, `exp(Aux)` has zero lower-left block,
both diagonal blocks equal to `exp(M)`, and top-right block equal to the
Fréchet (directional) derivative of the matrix exponential at `M` in direction
`dM` (i.e. the derivative at `t = 0` of `t ↦ exp(M + t·dM)`). -/
theorem diff_expm_mathias {p : ℕ} (M dM : Matrix (Fin p) (Fin p) ℝ) :
    diff_expm (exp ℝ) M dM
        = ((exp ℝ (Matrix.fromBlocks M dM 0 M)).toBlocks₁₁,
           (exp ℝ (Matrix.fromBlocks M dM 0 M)).toBlocks₁₂)
      ∧ exp ℝ (Matrix.fromBlocks M dM 0 M)
          = Matrix.fromBlocks (exp ℝ M) ((diff_expm (exp ℝ) M dM).2) 0 (exp ℝ M)
      ∧ HasDerivAt (fun t : ℝ => exp ℝ (M + t • dM)) ((diff_expm (exp ℝ) M dM).2) 0 := by
  have h2 : (diff_expm (exp ℝ) M dM).2 = dexpSeries M dM := by
    show (exp ℝ (Matrix.fromBlocks M dM 0 M)).toBlocks₁₂ = _
    rw [exp_fromBlocks]
    exact Matrix.toBlocks_fromBlocks₁₂ _ _ _ _
  refine ⟨rfl, ?_, ?_⟩
  · rw [h2, exp_fromBlocks]
  · rw [h2]
    exact hasDerivAt_exp_dir M dM

end MatrixExpMathias

end StiefelDiffTools
